import Mathlib

/-!
Verification development for the Fraudpheus repository.

The Python sources are shallowly embedded:
* dictionaries become association lists with Python-dict semantics
  (insertion order, update-in-place),
* `datetime` values become rationals counting seconds,
* fallible external calls (Slack / Airtable) become `Option`-valued
  outcome parameters (`none` models a raised, caught exception),
* Python string truthiness (`if s:`) is modelled by `truthy`.
-/

/-! ## Association lists with Python-dict semantics -/

section Dict

variable {κ α : Type} [DecidableEq κ]

/-- Lookup, first matching key (Python `d.get(k)` / `d[k]`). -/
def dictGet : List (κ × α) → κ → Option α
  | [], _ => none
  | (k', v) :: t, k => if k' = k then some v else dictGet t k

/-- `d[k] = v`: replace in place if the key exists, else append
(Python dicts preserve insertion order and update in place). -/
def dictSet : List (κ × α) → κ → α → List (κ × α)
  | [], k, v => [(k, v)]
  | (k', v') :: t, k, v => if k' = k then (k, v) :: t else (k', v') :: dictSet t k v

/-- `del d[k]` (call sites always guard membership first). -/
def dictDel : List (κ × α) → κ → List (κ × α)
  | [], _ => []
  | (k', v) :: t, k => if k' = k then dictDel t k else (k', v) :: dictDel t k

theorem dictGet_set_self (d : List (κ × α)) (k : κ) (v : α) :
    dictGet (dictSet d k v) k = some v := by
  induction d with
  | nil => simp [dictGet, dictSet]
  | cons p t ih =>
    obtain ⟨k', v'⟩ := p
    by_cases h : k' = k <;> simp [dictGet, dictSet, h, ih]

theorem dictGet_set_ne (d : List (κ × α)) (k k' : κ) (v : α) (h : k' ≠ k) :
    dictGet (dictSet d k v) k' = dictGet d k' := by
  induction d with
  | nil => simp [dictGet, dictSet, Ne.symm h]
  | cons p t ih =>
    obtain ⟨k₀, v₀⟩ := p
    by_cases h0 : k₀ = k
    · subst h0
      simp [dictGet, dictSet, Ne.symm h]
    · by_cases h1 : k₀ = k' <;> simp [dictGet, dictSet, h0, h1, h, ih]

theorem dictGet_del_self (d : List (κ × α)) (k : κ) :
    dictGet (dictDel d k) k = none := by
  induction d with
  | nil => simp [dictGet, dictDel]
  | cons p t ih =>
    obtain ⟨k', v'⟩ := p
    by_cases h : k' = k <;> simp [dictGet, dictDel, h, ih]

theorem dictGet_del_ne (d : List (κ × α)) (k k' : κ) (h : k' ≠ k) :
    dictGet (dictDel d k) k' = dictGet d k' := by
  induction d with
  | nil => simp [dictGet, dictDel]
  | cons p t ih =>
    obtain ⟨k₀, v₀⟩ := p
    by_cases h0 : k₀ = k
    · subst h0
      simp [dictGet, dictDel, Ne.symm h, ih]
    · simp [dictGet, dictDel, h0, ih]

end Dict

/-- Python truthiness of an optional string
(`None` and the empty string are falsy). -/
def truthy : Option String → Bool
  | none => false
  | some s => s != ""

/-! ## Thread/State Manager (src/thread_manager.py) -/

namespace ThreadManager

/-- One row of an Airtable table as the client returns it:
`record["id"]` plus the `fields` dict (absent fields read as `None`). -/
structure StoreRow where
  id : String
  user_id : Option String
  thread_ts : Option String
  channel : Option String
  message_ts : Option String
  deriving DecidableEq, Repr

/-- An `_active_cache` entry (thread_manager.py lines 26-32, 69-75, 112-118). -/
structure ActiveThread where
  thread_ts : Option String
  channel : Option String
  message_ts : Option String
  record_id : String
  last_activity : ℚ
  deriving DecidableEq, Repr

/-- A `_completed_cache` entry (thread_manager.py lines 44-49, 167-172). -/
structure CompletedThread where
  thread_ts : Option String
  channel : Option String
  message_ts : Option String
  record_id : String
  deriving DecidableEq, Repr

/-- A `_message_mappings` entry (thread_manager.py lines 226-231). -/
structure MessageMapping where
  user_id : String
  dm_ts : String
  message_text : String
  thread_ts : String
  deriving DecidableEq, Repr

/-- The in-memory state of a `ThreadManager`.  The reverse index
`_thread_ts_to_user_id` is keyed by whatever Python value is used as the
key, which can be `None` (complete_thread line 173), hence `Option String`. -/
structure TMState where
  active : List (String × ActiveThread)
  completed : List (String × List CompletedThread)
  mappings : List (String × MessageMapping)
  ttsIndex : List (Option String × String)
  deriving DecidableEq, Repr

/-- The empty state built at the top of `__init__`. -/
def initState : TMState := ⟨[], [], [], []⟩

/-- Process one row of the "Active Threads" table
(_load_from_airtable lines 22-34). -/
def loadActiveRow (now : ℚ) (st : TMState) (r : StoreRow) : TMState :=
  if truthy r.user_id then
    let u := r.user_id.getD ""
    { st with
      active := dictSet st.active u
        ⟨r.thread_ts, r.channel, r.message_ts, r.id, now⟩,
      ttsIndex :=
        if truthy r.thread_ts then dictSet st.ttsIndex r.thread_ts u
        else st.ttsIndex }
  else st

/-- Process one row of the "Completed Threads" table
(_load_from_airtable lines 38-51). -/
def loadCompletedRow (st : TMState) (r : StoreRow) : TMState :=
  if truthy r.user_id then
    let u := r.user_id.getD ""
    { st with
      completed := dictSet st.completed u
        ((dictGet st.completed u).getD [] ++
          [⟨r.thread_ts, r.channel, r.message_ts, r.id⟩]),
      ttsIndex :=
        if truthy r.thread_ts then dictSet st.ttsIndex r.thread_ts u
        else st.ttsIndex }
  else st

/-- `_load_from_airtable`: the two `.all()` calls may raise (`none`); an
exception during the active fetch loads nothing, an exception during the
completed fetch keeps the already-loaded active rows (lines 17-56). -/
def load_from_airtable (now : ℚ)
    (activeRes : Option (List StoreRow))
    (completedRes : Option (List StoreRow)) : TMState :=
  match activeRes with
  | none => initState
  | some arows =>
    let st1 := arows.foldl (loadActiveRow now) initState
    match completedRes with
    | none => st1
    | some crows => crows.foldl loadCompletedRow st1

/-- `_check_airtable_for_user` (lines 58-86).  `fetchRes` is the outcome of
the filtered `.all(formula, max_records=1)` call: `none` models a raised
exception, `some none` an empty result, `some (some r)` a hit. -/
def check_airtable_for_user (st : TMState) (user_id : String)
    (fetchRes : Option (Option StoreRow)) (now : ℚ) :
    Option ActiveThread × TMState :=
  match fetchRes with
  | none => (none, st)
  | some none => (none, st)
  | some (some r) =>
    let td : ActiveThread := ⟨r.thread_ts, r.channel, r.message_ts, r.id, now⟩
    (some td,
      { st with
        active := dictSet st.active user_id td,
        ttsIndex :=
          if truthy td.thread_ts then dictSet st.ttsIndex td.thread_ts user_id
          else st.ttsIndex })

/-- `get_active_thread` (lines 88-94). -/
def get_active_thread (st : TMState) (user_id : String)
    (fetchRes : Option (Option StoreRow)) (now : ℚ) :
    Option ActiveThread × TMState :=
  match dictGet st.active user_id with
  | some t => (some t, st)
  | none => check_airtable_for_user st user_id fetchRes now

/-- `has_active_thread` (lines 96-100). -/
def has_active_thread (st : TMState) (user_id : String)
    (fetchRes : Option (Option StoreRow)) (now : ℚ) : Bool × TMState :=
  if (dictGet st.active user_id).isSome then (true, st)
  else
    let (r, st') := check_airtable_for_user st user_id fetchRes now
    (r.isSome, st')

/-- `create_active_thread` (lines 102-129).  `createRes` is the outcome of
`active_threads_table.create`: `none` models a raised exception, `some rid`
the id of the created record. -/
def create_active_thread (st : TMState)
    (user_id channel thread_ts message_ts : String)
    (createRes : Option String) (now : ℚ) : Bool × TMState :=
  match createRes with
  | none => (false, st)
  | some rid =>
    (true,
      { st with
        active := dictSet st.active user_id
          ⟨some thread_ts, some channel, some message_ts, rid, now⟩,
        ttsIndex := dictSet st.ttsIndex (some thread_ts) user_id,
        completed :=
          if (dictGet st.completed user_id).isSome then st.completed
          else dictSet st.completed user_id [] })

/-- `update_thread_activity` (lines 131-145).  The store update of
`funny_field` may fail; its outcome is ignored (logged only), so the
resulting state does not depend on it. -/
def update_thread_activity (st : TMState) (user_id : String)
    (now : ℚ) (updRes : Option Unit) : TMState :=
  match dictGet st.active user_id with
  | none => st
  | some t =>
    let _ := updRes
    { st with
      active := dictSet st.active user_id { t with last_activity := now } }

/-- `complete_thread` (lines 147-181).  `createRes` is the outcome of
`completed_threads_table.create`, `deleteRes` of
`active_threads_table.delete`; `none` models a raised exception.  Cache
mutations (lines 165-174) happen only after both store calls returned. -/
def complete_thread (st : TMState) (user_id : String)
    (createRes : Option String) (deleteRes : Option Unit) : Bool × TMState :=
  match dictGet st.active user_id with
  | none => (false, st)
  | some at_ =>
    match createRes with
    | none => (false, st)
    | some cid =>
      match deleteRes with
      | none => (false, st)
      | some _ =>
        (true,
          { st with
            completed := dictSet st.completed user_id
              ((dictGet st.completed user_id).getD [] ++
                [⟨at_.thread_ts, at_.channel, at_.message_ts, cid⟩]),
            ttsIndex := dictSet st.ttsIndex at_.thread_ts user_id,
            active := dictDel st.active user_id })

/-- `get_completed_threads` (lines 183-185). -/
def get_completed_threads (st : TMState) (user_id : String) :
    List CompletedThread :=
  (dictGet st.completed user_id).getD []

/-- The two Python return shapes of `delete_thread`: the active path
returns a bare value (line 197), the other paths a pair (lines 210-215). -/
inductive DeleteResult where
  | bare (r : Option ActiveThread)
  | pair (r : Option CompletedThread) (b : Bool)
  deriving DecidableEq, Repr

/-- Which table a successful store `delete` call hit. -/
inductive TableId where
  | activeTable
  | completedTable
  deriving DecidableEq, Repr

/-- First index of the completed entry whose `message_ts` matches
(the `for i, thread in enumerate(...)` scan, lines 201-210). -/
def findCompletedIdx (l : List CompletedThread) (message_ts : String) :
    Option (Nat × CompletedThread) :=
  match l with
  | [] => none
  | t :: rest =>
    if t.message_ts = some message_ts then some (0, t)
    else (findCompletedIdx rest message_ts).map (fun p => (p.1 + 1, p.2))

/-- `list.pop i`. -/
def popIdx (l : List CompletedThread) (i : Nat) : List CompletedThread :=
  l.take i ++ l.drop (i + 1)

/-- `delete_thread` (lines 187-215).  `delActiveRes` / `delCompletedRes`
are the outcomes of the respective table `delete` calls (`none` models a
raised exception).  The third component lists the store rows that were
successfully deleted. -/
def delete_thread (st : TMState) (user_id message_ts : String)
    (delActiveRes delCompletedRes : Option Unit) :
    DeleteResult × TMState × List (TableId × String) :=
  match dictGet st.active user_id with
  | some at_ =>
    if at_.message_ts = some message_ts then
      match delActiveRes with
      | none => (.pair none false, st, [])
      | some _ =>
        let st' := { st with active := dictDel st.active user_id }
        (.bare (dictGet st'.active user_id), st',
          [(.activeTable, at_.record_id)])
    else deleteCompletedBranch st user_id message_ts delCompletedRes
  | none => deleteCompletedBranch st user_id message_ts delCompletedRes
where
  /-- The completed-cache scan (lines 200-212). -/
  deleteCompletedBranch (st : TMState) (user_id message_ts : String)
      (delCompletedRes : Option Unit) :
      DeleteResult × TMState × List (TableId × String) :=
    match dictGet st.completed user_id with
    | none => (.pair none false, st, [])
    | some l =>
      match findCompletedIdx l message_ts with
      | none => (.pair none false, st, [])
      | some (i, t) =>
        match delCompletedRes with
        | none => (.pair none false, st, [])
        | some _ =>
          let st' :=
            { st with
              completed := dictSet st.completed user_id (popIdx l i),
              ttsIndex :=
                if (dictGet st.ttsIndex t.thread_ts).isSome then
                  dictDel st.ttsIndex t.thread_ts
                else st.ttsIndex }
          (.pair (some t) false, st', [(.completedTable, t.record_id)])

/-- `store_message_mapping` (lines 225-231). -/
def store_message_mapping (st : TMState)
    (fraud_dept_ts user_id dm_ts message_text thread_ts : String) : TMState :=
  { st with
    mappings := dictSet st.mappings fraud_dept_ts
      ⟨user_id, dm_ts, message_text, thread_ts⟩ }

/-- `get_message_mapping` (lines 233-235). -/
def get_message_mapping (st : TMState) (fraud_dept_ts : String) :
    Option MessageMapping :=
  dictGet st.mappings fraud_dept_ts

/-- `remove_message_mapping` (lines 237-240). -/
def remove_message_mapping (st : TMState) (fraud_dept_ts : String) : TMState :=
  if (dictGet st.mappings fraud_dept_ts).isSome then
    { st with mappings := dictDel st.mappings fraud_dept_ts }
  else st

/-- An element of the list `get_inactive_threads` returns
(lines 250-254). -/
structure InactiveEntry where
  user_id : String
  thread_info : ActiveThread
  hours_inactive : ℚ
  deriving DecidableEq, Repr

/-- `get_inactive_threads` (lines 242-256).  `now` stands for
`datetime.now()`; times are rationals in seconds, so
`timedelta(hours=hours)` is `hours * 3600` and `total_seconds() / 3600`
is exact division. -/
def get_inactive_threads (st : TMState) (now : ℚ) (hours : ℚ) :
    List InactiveEntry :=
  let cutoff := now - hours * 3600
  st.active.filterMap (fun p =>
    if p.2.last_activity < cutoff then
      some ⟨p.1, p.2, (now - p.2.last_activity) / 3600⟩
    else none)

/-- `get_user_by_thread_ts` (lines 258-259). -/
def get_user_by_thread_ts (st : TMState) (thread_ts : Option String) :
    Option String :=
  dictGet st.ttsIndex thread_ts

end ThreadManager

/-! ## Claim theorems: Thread/State Manager basics -/

namespace ThreadManager

/-- C3: `complete_thread` returns `false` and leaves the whole state
(active cache, completed cache, reverse index, mappings) untouched
whenever the user has no active-cache entry or either store call
(completed-row create, active-row delete) raises; and the state is
mutated only when the entry exists and both store calls succeeded. -/
theorem complete_thread_failure_semantics (st : TMState) (u : String)
    (cr : Option String) (dr : Option Unit) :
    ((dictGet st.active u = none ∨ cr = none ∨ dr = none) →
      complete_thread st u cr dr = (false, st)) ∧
    ((complete_thread st u cr dr).2 ≠ st →
      (dictGet st.active u).isSome ∧ cr.isSome ∧ dr.isSome) := by
  constructor
  · rintro (h | h | h)
    · simp [complete_thread, h]
    · cases hA : dictGet st.active u <;> simp [complete_thread, hA, h]
    · cases hA : dictGet st.active u <;> cases cr <;>
        simp [complete_thread, hA, h]
  · intro hne
    cases hA : dictGet st.active u with
    | none =>
      exact absurd
        (show (complete_thread st u cr dr).2 = st by
          simp [complete_thread, hA]) hne
    | some at_ =>
      cases cr with
      | none =>
        exact absurd
          (show (complete_thread st u none dr).2 = st by
            simp [complete_thread, hA]) hne
      | some cid =>
        cases dr with
        | none =>
          exact absurd
            (show (complete_thread st u (some cid) none).2 = st by
              simp [complete_thread, hA]) hne
        | some _ => simp [hA]

/-- C3 witness. -/
theorem complete_thread_failure_semantics_witness :
    complete_thread initState "U1" (some "rec1") (some ()) =
      (false, initState) :=
  (complete_thread_failure_semantics initState "U1" (some "rec1")
    (some ())).1 (Or.inl (by decide))

/-- C1: starting from a state where user `U` has no active-cache entry and
no completed history, a successful `create_active_thread U C T M` followed
by a successful `complete_thread U` leaves `has_active_thread U` false
(when the cache-miss store fallback finds no row) and
`get_completed_threads U` equal to a single entry whose `thread_ts` is
`T`. -/
theorem create_then_complete (st0 : TMState) (U C T M rid cid : String)
    (fetchRes : Option (Option StoreRow)) (now : ℚ)
    (_hactive : dictGet st0.active U = none)
    (hcomp : get_completed_threads st0 U = [])
    (hfetch : fetchRes = some none) :
    (complete_thread (create_active_thread st0 U C T M (some rid) now).2 U
        (some cid) (some ())).1 = true ∧
    (has_active_thread
        (complete_thread (create_active_thread st0 U C T M (some rid) now).2 U
          (some cid) (some ())).2 U fetchRes now).1 = false ∧
    ∃ e,
      get_completed_threads
          (complete_thread
            (create_active_thread st0 U C T M (some rid) now).2 U
            (some cid) (some ())).2 U = [e] ∧
      e.thread_ts = some T := by
  subst hfetch
  have hget :
      dictGet (create_active_thread st0 U C T M (some rid) now).2.active U =
        some ⟨some T, some C, some M, rid, now⟩ := by
    simp [create_active_thread, dictGet_set_self]
  have hcompleted :
      dictGet (create_active_thread st0 U C T M (some rid) now).2.completed
          U = some [] := by
    cases hc : dictGet st0.completed U with
    | none => simp [create_active_thread, hc, dictGet_set_self]
    | some l =>
      have : l = [] := by
        simpa [get_completed_threads, hc] using hcomp
      subst this
      simp [create_active_thread, hc]
  refine ⟨?_, ?_, ?_⟩
  · simp [complete_thread, hget]
  · simp [complete_thread, hget, has_active_thread, dictGet_del_self,
      check_airtable_for_user]
  · refine ⟨⟨some T, some C, some M, cid⟩, ?_, rfl⟩
    simp [complete_thread, hget, hcompleted, get_completed_threads,
      dictGet_set_self]

/-- C1 witness. -/
theorem create_then_complete_witness :
    (complete_thread
        (create_active_thread initState "U1" "C1" "T1" "M1" (some "r1") 0).2
        "U1" (some "c1") (some ())).1 = true ∧
    (has_active_thread
        (complete_thread
          (create_active_thread initState "U1" "C1" "T1" "M1" (some "r1") 0).2
          "U1" (some "c1") (some ())).2 "U1" (some none) 0).1 = false ∧
    ∃ e,
      get_completed_threads
          (complete_thread
            (create_active_thread initState "U1" "C1" "T1" "M1" (some "r1")
              0).2 "U1" (some "c1") (some ())).2 "U1" = [e] ∧
      e.thread_ts = some "T1" :=
  create_then_complete initState "U1" "C1" "T1" "M1" "r1" "c1" (some none) 0
    (by decide) (by decide) rfl

/-- C8: storing a message mapping for key `X` and retrieving by `X`
returns all four stored fields unchanged; removing it afterwards makes
retrieval by `X` return `none`. -/
theorem message_mapping_round_trip (st : TMState)
    (X U D text T : String) :
    get_message_mapping (store_message_mapping st X U D text T) X =
      some ⟨U, D, text, T⟩ ∧
    get_message_mapping
        (remove_message_mapping (store_message_mapping st X U D text T) X)
        X = none := by
  constructor
  · simp [get_message_mapping, store_message_mapping, dictGet_set_self]
  · simp [get_message_mapping, store_message_mapping,
      remove_message_mapping, dictGet_set_self, dictGet_del_self]

end ThreadManager

namespace ThreadManager

/-- Demo active entry last active `h` hours before time 1000000. -/
def inactDemoThread (h : ℚ) : ActiveThread :=
  ⟨some "T", some "C", some "M", "r", 1000000 - h * 3600⟩

/-- Demo state with three active cases last active 10, 50 and 100 hours
ago. -/
def inactDemoState : TMState :=
  ⟨[("u10", inactDemoThread 10), ("u50", inactDemoThread 50),
    ("u100", inactDemoThread 100)], [], [], []⟩

/-- C7: `get_inactive_threads hours` returns exactly the active entries
whose last activity is older than now minus the threshold, each tagged
with `hours_inactive` equal to the elapsed time in fractional hours; in
particular, with cases 10, 50 and 100 hours stale, threshold 48 returns
exactly the 50-hour and 100-hour cases. -/
theorem get_inactive_threads_spec :
    (∀ (st : TMState) (now hours : ℚ) (x : InactiveEntry),
      x ∈ get_inactive_threads st now hours ↔
        ((x.user_id, x.thread_info) ∈ st.active ∧
          x.thread_info.last_activity < now - hours * 3600 ∧
          x.hours_inactive = (now - x.thread_info.last_activity) / 3600)) ∧
    get_inactive_threads inactDemoState 1000000 48 =
      [⟨"u50", inactDemoThread 50, 50⟩, ⟨"u100", inactDemoThread 100, 100⟩] := by
  constructor
  · intro st now hours x
    constructor
    · intro hx
      simp only [get_inactive_threads, List.mem_filterMap] at hx
      obtain ⟨p, hp, hf⟩ := hx
      by_cases hc : p.2.last_activity < now - hours * 3600
      · rw [if_pos hc] at hf
        obtain ⟨u, t, hi⟩ := x
        injection hf with hf
        cases hf
        exact ⟨hp, hc, rfl⟩
      · rw [if_neg hc] at hf
        exact absurd hf (by simp)
    · rintro ⟨hmem, hlt, hh⟩
      obtain ⟨u, t, hi⟩ := x
      simp only [get_inactive_threads, List.mem_filterMap]
      exact ⟨(u, t), hmem, by simp only at hlt hh ⊢; simp [hlt, hh]⟩
  · norm_num [get_inactive_threads, inactDemoState, inactDemoThread,
      List.filterMap_cons]

/-- C7 witness: the 50-hour case is reported with `hours_inactive = 50`. -/
theorem get_inactive_threads_spec_witness :
    (⟨"u50", inactDemoThread 50, 50⟩ : InactiveEntry) ∈
      get_inactive_threads inactDemoState 1000000 48 :=
  (get_inactive_threads_spec.1 inactDemoState 1000000 48
    ⟨"u50", inactDemoThread 50, 50⟩).mpr
    (by refine ⟨by simp [inactDemoState], ?_, ?_⟩ <;>
          norm_num [inactDemoThread])

/-- The completed-cache scan only selects entries whose `message_ts`
matches. -/
theorem findCompletedIdx_matches (l : List CompletedThread)
    (m : String) (i : Nat) (t : CompletedThread)
    (h : findCompletedIdx l m = some (i, t)) : t.message_ts = some m := by
  induction l generalizing i with
  | nil => simp [findCompletedIdx] at h
  | cons a rest ih =>
    by_cases ha : a.message_ts = some m
    · rw [findCompletedIdx, if_pos ha] at h
      injection h with h
      cases h
      exact ha
    · rw [findCompletedIdx, if_neg ha] at h
      cases hr : findCompletedIdx rest m with
      | none =>
        rw [hr] at h
        exact Option.noConfusion h
      | some p =>
        rw [hr] at h
        obtain ⟨j, t'⟩ := p
        injection h with h
        cases h
        exact ih j hr

/-- Concrete state for `delete_thread`: one active case for user `u`
with thread `T`, button message `M`, store row `rA`, and the matching
reverse-index entry. -/
def c2State : TMState :=
  ⟨[("u", ⟨some "T", some "C", some "M", "rA", 0⟩)], [], [],
    [(some "T", "u")]⟩

/-- C2 counterexample: on the active-cache path, with a matching record
and a successful store delete, `delete_thread` removes the cache entry
but returns an absent value (`bare none`) instead of the removed record,
and the reverse-index entry for the removed thread survives. -/
theorem delete_thread_counterexample :
    (delete_thread c2State "u" "M" (some ()) (some ())).1 =
      .bare none ∧
    (delete_thread c2State "u" "M" (some ()) (some ())).2.1.active = [] ∧
    get_user_by_thread_ts
        (delete_thread c2State "u" "M" (some ()) (some ())).2.1
        (some "T") = some "u" :=
  ⟨rfl, rfl, rfl⟩

/-- C2 (amended): when the user's active-cache entry matches `message_ts`
and the store delete succeeds, `delete_thread` deletes that store row and
removes the cache entry, but leaves the reverse index unchanged and
returns an absent value rather than the removed record; when the match is
instead found in the completed sequence and the store delete succeeds, it
deletes that store row, removes the record from the completed cache and
its thread timestamp from the reverse index, and returns the removed
record (paired with `false`). -/
theorem delete_thread_semantics (st : TMState) (u m : String)
    (dar dcr : Option Unit) :
    (∀ at_, dictGet st.active u = some at_ → at_.message_ts = some m →
      delete_thread st u m (some ()) dcr =
        (.bare none, { st with active := dictDel st.active u },
          [(.activeTable, at_.record_id)])) ∧
    (∀ l i t,
      (dictGet st.active u = none ∨
        ∃ at_, dictGet st.active u = some at_ ∧ at_.message_ts ≠ some m) →
      dictGet st.completed u = some l →
      findCompletedIdx l m = some (i, t) →
      ∃ st',
        delete_thread st u m dar (some ()) =
          (.pair (some t) false, st', [(.completedTable, t.record_id)]) ∧
        t.message_ts = some m ∧
        dictGet st'.completed u = some (popIdx l i) ∧
        get_user_by_thread_ts st' t.thread_ts = none ∧
        st'.active = st.active) := by
  constructor
  · intro at_ hA hm
    simp [delete_thread, hA, hm, dictGet_del_self]
  · intro l i t hmiss hc hfind
    have hbranch :
        delete_thread st u m dar (some ()) =
          delete_thread.deleteCompletedBranch st u m (some ()) := by
      rcases hmiss with h | ⟨at_, hA, hm⟩
      · simp [delete_thread, h]
      · simp [delete_thread, hA, hm]
    refine ⟨{ st with
        completed := dictSet st.completed u (popIdx l i),
        ttsIndex :=
          if (dictGet st.ttsIndex t.thread_ts).isSome then
            dictDel st.ttsIndex t.thread_ts
          else st.ttsIndex }, ?_, findCompletedIdx_matches l m i t hfind,
      ?_, ?_, rfl⟩
    · rw [hbranch]
      simp [delete_thread.deleteCompletedBranch, hc, hfind]
    · simp [dictGet_set_self]
    · simp only [get_user_by_thread_ts]
      by_cases hidx : (dictGet st.ttsIndex t.thread_ts).isSome
      · simp [hidx, dictGet_del_self]
      · simp only [hidx, if_false]
        simpa using hidx

/-- C2 amended-claim witness (active path at a concrete state). -/
theorem delete_thread_semantics_witness :
    delete_thread c2State "u" "M" (some ()) (some ()) =
      (.bare none, { c2State with active := dictDel c2State.active "u" },
        [(.activeTable, "rA")]) :=
  (delete_thread_semantics c2State "u" "M" (some ()) (some ())).1
    ⟨some "T", some "C", some "M", "rA", 0⟩ rfl rfl

end ThreadManager

namespace ThreadManager

/-- The thread timestamp a store row contributes to the reverse index:
present only when Python-truthy (non-absent and non-empty),
mirroring the `if fields.get("thread_ts"):` guards. -/
def rowTs (r : StoreRow) : Option String :=
  if truthy r.thread_ts then r.thread_ts else none

/-- Reverse-index invariant: every active-cache entry carrying a
non-absent, non-empty thread timestamp is found by
`get_user_by_thread_ts`. -/
def TMInv (st : TMState) : Prop :=
  ∀ u at_ ts, dictGet st.active u = some at_ → at_.thread_ts = some ts →
    ts ≠ "" → get_user_by_thread_ts st (some ts) = some u

/-- Some active-cache entry carries the non-empty thread timestamp `ts`. -/
def ActiveTsMem (st : TMState) (ts : String) : Prop :=
  ∃ u at_, dictGet st.active u = some at_ ∧ at_.thread_ts = some ts ∧ ts ≠ ""

theorem truthy_iff (o : Option String) :
    truthy o = true ↔ ∃ s, o = some s ∧ s ≠ "" := by
  cases o <;> simp [truthy]

theorem truthy_some (s : String) (h : s ≠ "") : truthy (some s) = true := by
  simp [truthy, h]

theorem loadActiveRow_inv (st : TMState) (r : StoreRow) (now : ℚ)
    (hinv : TMInv st)
    (hfresh : ∀ ts, rowTs r = some ts → ¬ ActiveTsMem st ts) :
    TMInv (loadActiveRow now st r) := by
  cases hu : truthy r.user_id with
  | false => simpa [loadActiveRow, hu] using hinv
  | true =>
    intro u' at' ts h1 h2 h3
    simp only [loadActiveRow, hu, if_true] at h1 ⊢
    by_cases huu : u' = r.user_id.getD ""
    · subst huu
      rw [dictGet_set_self] at h1
      injection h1 with h1
      subst h1
      simp only at h2
      simp only [get_user_by_thread_ts, h2, truthy_some ts h3, if_true]
      rw [dictGet_set_self]
    · rw [dictGet_set_ne _ _ _ _ huu] at h1
      have hold := hinv u' at' ts h1 h2 h3
      simp only [get_user_by_thread_ts] at hold ⊢
      cases htr : truthy r.thread_ts with
      | false => simpa [htr] using hold
      | true =>
        obtain ⟨ts₀, hts₀, hne₀⟩ := (truthy_iff _).mp htr
        have hkey : (some ts : Option String) ≠ some ts₀ := by
          intro hk
          injection hk with hk
          subst hk
          exact hfresh ts (by simp [rowTs, hts₀, truthy_some _ hne₀]) ⟨u', at', h1, h2, h3⟩
        simp only [hts₀, truthy_some ts₀ hne₀, if_true]
        rw [dictGet_set_ne _ _ _ _ hkey]
        exact hold

theorem loadActiveRow_mem (st : TMState) (r : StoreRow) (now : ℚ)
    (ts : String) (h : ActiveTsMem (loadActiveRow now st r) ts) :
    ActiveTsMem st ts ∨ rowTs r = some ts := by
  cases hu : truthy r.user_id with
  | false => exact Or.inl (by simpa [loadActiveRow, hu] using h)
  | true =>
    obtain ⟨u', at', h1, h2, h3⟩ := h
    simp only [loadActiveRow, hu, if_true] at h1
    by_cases huu : u' = r.user_id.getD ""
    · subst huu
      rw [dictGet_set_self] at h1
      injection h1 with h1
      subst h1
      simp only at h2
      refine Or.inr ?_
      simp [rowTs, h2, truthy_some ts h3]
    · rw [dictGet_set_ne _ _ _ _ huu] at h1
      exact Or.inl ⟨u', at', h1, h2, h3⟩

theorem foldActive_inv (rows : List StoreRow) (st : TMState) (now : ℚ)
    (hinv : TMInv st)
    (hnd : (rows.filterMap rowTs).Nodup)
    (hfresh : ∀ ts ∈ rows.filterMap rowTs, ¬ ActiveTsMem st ts) :
    TMInv (rows.foldl (loadActiveRow now) st) := by
  induction rows generalizing st with
  | nil => simpa using hinv
  | cons r rest ih =>
    simp only [List.foldl_cons]
    have hinv1 : TMInv (loadActiveRow now st r) :=
      loadActiveRow_inv st r now hinv
        (fun ts hts => hfresh ts (by simp [List.filterMap_cons, hts]))
    cases hr : rowTs r with
    | none =>
      refine ih _ hinv1 (by simpa [List.filterMap_cons, hr] using hnd) ?_
      intro ts hts hmem
      rcases loadActiveRow_mem st r now ts hmem with hm | hm
      · exact hfresh ts (by simp [List.filterMap_cons, hr, hts]) hm
      · rw [hr] at hm; exact Option.noConfusion hm
    | some a =>
      rw [List.filterMap_cons, hr] at hnd hfresh
      have hnd' := hnd.of_cons
      have ha : a ∉ rest.filterMap rowTs := by
        intro hmem
        exact (List.nodup_cons.mp hnd).1 hmem
      refine ih _ hinv1 hnd' ?_
      intro ts hts hmem
      rcases loadActiveRow_mem st r now ts hmem with hm | hm
      · exact hfresh ts (List.mem_cons_of_mem _ hts) hm
      · rw [hr] at hm
        injection hm with hm
        subst hm
        exact ha hts

theorem foldActive_mem (rows : List StoreRow) (st : TMState) (now : ℚ)
    (ts : String)
    (h : ActiveTsMem (rows.foldl (loadActiveRow now) st) ts) :
    ActiveTsMem st ts ∨ ts ∈ rows.filterMap rowTs := by
  induction rows generalizing st with
  | nil => exact Or.inl (by simpa using h)
  | cons r rest ih =>
    simp only [List.foldl_cons] at h
    rcases ih _ h with hm | hm
    · rcases loadActiveRow_mem st r now ts hm with hm' | hm'
      · exact Or.inl hm'
      · exact Or.inr (by simp [List.filterMap_cons, hm'])
    · refine Or.inr ?_
      rw [List.filterMap_cons]
      cases hr : rowTs r <;> simp [hm]

theorem loadCompletedRow_active (st : TMState) (r : StoreRow) :
    (loadCompletedRow st r).active = st.active := by
  unfold loadCompletedRow
  split <;> rfl

theorem loadCompletedRow_inv (st : TMState) (r : StoreRow)
    (hinv : TMInv st)
    (hfresh : ∀ ts, rowTs r = some ts → ¬ ActiveTsMem st ts) :
    TMInv (loadCompletedRow st r) := by
  cases hu : truthy r.user_id with
  | false => simpa [loadCompletedRow, hu] using hinv
  | true =>
    intro u' at' ts h1 h2 h3
    simp only [loadCompletedRow, hu, if_true] at h1 ⊢
    have hold := hinv u' at' ts h1 h2 h3
    simp only [get_user_by_thread_ts] at hold ⊢
    cases htr : truthy r.thread_ts with
    | false => simpa [htr] using hold
    | true =>
      obtain ⟨ts₀, hts₀, hne₀⟩ := (truthy_iff _).mp htr
      have hkey : (some ts : Option String) ≠ some ts₀ := by
        intro hk
        injection hk with hk
        subst hk
        exact hfresh ts (by simp [rowTs, hts₀, truthy_some _ hne₀]) ⟨u', at', h1, h2, h3⟩
      simp only [hts₀, truthy_some ts₀ hne₀, if_true]
      rw [dictGet_set_ne _ _ _ _ hkey]
      exact hold

theorem loadCompletedRow_mem (st : TMState) (r : StoreRow) (ts : String)
    (h : ActiveTsMem (loadCompletedRow st r) ts) : ActiveTsMem st ts := by
  obtain ⟨u', at', h1, h2, h3⟩ := h
  rw [loadCompletedRow_active] at h1
  exact ⟨u', at', h1, h2, h3⟩

theorem foldCompleted_inv (rows : List StoreRow) (st : TMState)
    (hinv : TMInv st)
    (hfresh : ∀ ts ∈ rows.filterMap rowTs, ¬ ActiveTsMem st ts) :
    TMInv (rows.foldl loadCompletedRow st) := by
  induction rows generalizing st with
  | nil => simpa using hinv
  | cons r rest ih =>
    simp only [List.foldl_cons]
    have hinv1 : TMInv (loadCompletedRow st r) :=
      loadCompletedRow_inv st r hinv
        (fun ts hts => hfresh ts (by simp [List.filterMap_cons, hts]))
    refine ih _ hinv1 ?_
    intro ts hts hmem
    have := loadCompletedRow_mem st r ts hmem
    refine hfresh ts ?_ this
    rw [List.filterMap_cons]
    cases hr : rowTs r <;> simp [hts]

end ThreadManager

namespace ThreadManager

theorem TMInv_init : TMInv initState := by
  intro u at_ ts h1
  exact Option.noConfusion h1

theorem ActiveTsMem_init (ts : String) : ¬ ActiveTsMem initState ts := by
  rintro ⟨u, at_, h1, -, -⟩
  exact Option.noConfusion h1

theorem check_airtable_inv (st : TMState) (u : String)
    (fetchRes : Option (Option StoreRow)) (now : ℚ)
    (hinv : TMInv st)
    (hfresh : ∀ r ts, fetchRes = some (some r) → rowTs r = some ts →
      ¬ ActiveTsMem st ts) :
    TMInv (check_airtable_for_user st u fetchRes now).2 := by
  match fetchRes with
  | none => exact hinv
  | some none => exact hinv
  | some (some r) =>
    intro u' at' ts h1 h2 h3
    simp only [check_airtable_for_user] at h1 ⊢
    by_cases huu : u' = u
    · subst huu
      rw [dictGet_set_self] at h1
      injection h1 with h1
      subst h1
      simp only at h2
      simp only [get_user_by_thread_ts, h2, truthy_some ts h3, if_true]
      rw [dictGet_set_self]
    · rw [dictGet_set_ne _ _ _ _ huu] at h1
      have hold := hinv u' at' ts h1 h2 h3
      simp only [get_user_by_thread_ts] at hold ⊢
      cases htr : truthy r.thread_ts with
      | false => simpa [htr] using hold
      | true =>
        obtain ⟨ts₀, hts₀, hne₀⟩ := (truthy_iff _).mp htr
        have hkey : (some ts : Option String) ≠ some ts₀ := by
          intro hk
          injection hk with hk
          subst hk
          exact hfresh r ts rfl (by simp [rowTs, hts₀, truthy_some _ hne₀])
            ⟨u', at', h1, h2, h3⟩
        simp only [hts₀, truthy_some ts₀ hne₀, if_true]
        rw [dictGet_set_ne _ _ _ _ hkey]
        exact hold

theorem get_active_thread_inv (st : TMState) (u : String)
    (fetchRes : Option (Option StoreRow)) (now : ℚ)
    (hinv : TMInv st)
    (hfresh : ∀ r ts, fetchRes = some (some r) → rowTs r = some ts →
      ¬ ActiveTsMem st ts) :
    TMInv (get_active_thread st u fetchRes now).2 := by
  cases hA : dictGet st.active u with
  | some t => simpa [get_active_thread, hA] using hinv
  | none =>
    have := check_airtable_inv st u fetchRes now hinv hfresh
    simpa [get_active_thread, hA] using this

theorem create_active_thread_inv (st : TMState)
    (u c T m : String) (res : Option String) (now : ℚ)
    (hinv : TMInv st) (hfresh : ¬ ActiveTsMem st T) :
    TMInv (create_active_thread st u c T m res now).2 := by
  cases res with
  | none => exact hinv
  | some rid =>
    intro u' at' ts h1 h2 h3
    simp only [create_active_thread] at h1 ⊢
    by_cases huu : u' = u
    · subst huu
      rw [dictGet_set_self] at h1
      injection h1 with h1
      subst h1
      simp only at h2
      injection h2 with h2
      subst h2
      simp only [get_user_by_thread_ts]
      rw [dictGet_set_self]
    · rw [dictGet_set_ne _ _ _ _ huu] at h1
      have hold := hinv u' at' ts h1 h2 h3
      have hkey : (some ts : Option String) ≠ some T := by
        intro hk
        injection hk with hk
        subst hk
        exact hfresh ⟨u', at', h1, h2, h3⟩
      simp only [get_user_by_thread_ts] at hold ⊢
      rw [dictGet_set_ne _ _ _ _ hkey]
      exact hold

theorem update_thread_activity_inv (st : TMState) (u : String)
    (now : ℚ) (res : Option Unit) (hinv : TMInv st) :
    TMInv (update_thread_activity st u now res) := by
  cases hA : dictGet st.active u with
  | none => simpa [update_thread_activity, hA] using hinv
  | some t =>
    intro u' at' ts h1 h2 h3
    simp only [update_thread_activity, hA] at h1 ⊢
    by_cases huu : u' = u
    · subst huu
      rw [dictGet_set_self] at h1
      injection h1 with h1
      subst h1
      simp only at h2
      exact hinv _ t ts hA h2 h3
    · rw [dictGet_set_ne _ _ _ _ huu] at h1
      exact hinv u' at' ts h1 h2 h3

theorem complete_thread_inv (st : TMState) (u : String)
    (cr : Option String) (dr : Option Unit) (hinv : TMInv st) :
    TMInv (complete_thread st u cr dr).2 := by
  cases hA : dictGet st.active u with
  | none => simpa [complete_thread, hA] using hinv
  | some at_ =>
    cases cr with
    | none => simpa [complete_thread, hA] using hinv
    | some cid =>
      cases dr with
      | none => simpa [complete_thread, hA] using hinv
      | some _ =>
        intro u' at' ts h1 h2 h3
        simp only [complete_thread, hA] at h1 ⊢
        have huu : u' ≠ u := by
          intro hk
          subst hk
          rw [dictGet_del_self] at h1
          exact Option.noConfusion h1
        rw [dictGet_del_ne _ _ _ huu] at h1
        have hold := hinv u' at' ts h1 h2 h3
        have hkey : (some ts : Option String) ≠ at_.thread_ts := by
          intro hk
          have h5 := hinv u at_ ts hA hk.symm h3
          rw [hold] at h5
          injection h5 with h5
          exact huu h5
        simp only [get_user_by_thread_ts] at hold ⊢
        rw [dictGet_set_ne _ _ _ _ hkey]
        exact hold

theorem deleteCompletedBranch_inv (st : TMState) (u m : String)
    (dcr : Option Unit) (hinv : TMInv st)
    (hfresh : ∀ l i t ts, dictGet st.completed u = some l →
      findCompletedIdx l m = some (i, t) → t.thread_ts = some ts →
      ¬ ActiveTsMem st ts) :
    TMInv (delete_thread.deleteCompletedBranch st u m dcr).2.1 := by
  cases hc : dictGet st.completed u with
  | none => simpa [delete_thread.deleteCompletedBranch, hc] using hinv
  | some l =>
    cases hf : findCompletedIdx l m with
    | none => simpa [delete_thread.deleteCompletedBranch, hc, hf] using hinv
    | some p =>
      obtain ⟨i, t⟩ := p
      cases dcr with
      | none => simpa [delete_thread.deleteCompletedBranch, hc, hf] using hinv
      | some _ =>
        intro u' at' ts h1 h2 h3
        simp only [delete_thread.deleteCompletedBranch, hc, hf] at h1 ⊢
        have hold := hinv u' at' ts h1 h2 h3
        have hkey : (some ts : Option String) ≠ t.thread_ts := by
          intro hk
          exact hfresh l i t ts hc hf hk.symm ⟨u', at', h1, h2, h3⟩
        simp only [get_user_by_thread_ts] at hold ⊢
        by_cases hidx : (dictGet st.ttsIndex t.thread_ts).isSome
        · simp only [hidx, if_true]
          rw [dictGet_del_ne _ _ _ hkey]
          exact hold
        · simpa [hidx] using hold

theorem delete_thread_inv (st : TMState) (u m : String)
    (dar dcr : Option Unit) (hinv : TMInv st)
    (hfresh : ∀ l i t ts, dictGet st.completed u = some l →
      findCompletedIdx l m = some (i, t) → t.thread_ts = some ts →
      ¬ ActiveTsMem st ts) :
    TMInv (delete_thread st u m dar dcr).2.1 := by
  cases hA : dictGet st.active u with
  | none =>
    have := deleteCompletedBranch_inv st u m dcr hinv hfresh
    simpa [delete_thread, hA] using this
  | some at_ =>
    by_cases hm : at_.message_ts = some m
    · cases dar with
      | none => simpa [delete_thread, hA, hm] using hinv
      | some _ =>
        intro u' at' ts h1 h2 h3
        simp only [delete_thread, hA, hm, if_pos] at h1 ⊢
        have huu : u' ≠ u := by
          intro hk
          subst hk
          rw [dictGet_del_self] at h1
          exact Option.noConfusion h1
        rw [dictGet_del_ne _ _ _ huu] at h1
        exact hinv u' at' ts h1 h2 h3
    · have := deleteCompletedBranch_inv st u m dcr hinv hfresh
      simpa [delete_thread, hA, hm] using this

end ThreadManager

namespace ThreadManager

/-- Store row with user `u1` and an empty-string thread timestamp. -/
def c10Row : StoreRow := ⟨"r1", some "u1", some "", some "C", some "M"⟩

/-- C10 counterexample: after construction from a single store row whose
`thread_ts` is the empty string (trivially distinct from all other, absent
timestamps), the active cache holds an entry for `u1` carrying the
non-absent thread timestamp `""`, yet `get_user_by_thread_ts` applied to
that timestamp returns nothing — the loader only indexes Python-truthy
timestamps. -/
theorem thread_ts_index_counterexample :
    dictGet (load_from_airtable 0 (some [c10Row]) (some [])).active "u1" =
      some ⟨some "", some "C", some "M", "r1", 0⟩ ∧
    get_user_by_thread_ts (load_from_airtable 0 (some [c10Row]) (some []))
      (some "") = none :=
  ⟨rfl, rfl⟩

/-- C10 (amended): for every user in the active cache whose entry carries
a non-absent, non-empty thread timestamp, `get_user_by_thread_ts` on that
timestamp returns that user; the invariant holds after construction from
store rows (when the truthy thread timestamps of the loaded rows are
pairwise distinct) and is preserved by `get_active_thread`,
`create_active_thread`, `update_thread_activity`, `complete_thread` and
`delete_thread` (when the thread timestamp a step adds or removes does
not also belong to another active record). -/
theorem thread_ts_index_invariant :
    (∀ (now : ℚ) (activeRes completedRes : Option (List StoreRow)),
      (((activeRes.getD []).filterMap rowTs) ++
        ((completedRes.getD []).filterMap rowTs)).Nodup →
      TMInv (load_from_airtable now activeRes completedRes)) ∧
    (∀ st u fetchRes (now : ℚ), TMInv st →
      (∀ r ts, fetchRes = some (some r) → rowTs r = some ts →
        ¬ ActiveTsMem st ts) →
      TMInv (get_active_thread st u fetchRes now).2) ∧
    (∀ st u c T m res (now : ℚ), TMInv st → ¬ ActiveTsMem st T →
      TMInv (create_active_thread st u c T m res now).2) ∧
    (∀ st u (now : ℚ) res, TMInv st →
      TMInv (update_thread_activity st u now res)) ∧
    (∀ st u cr dr, TMInv st → TMInv (complete_thread st u cr dr).2) ∧
    (∀ st u m dar dcr, TMInv st →
      (∀ l i t ts, dictGet st.completed u = some l →
        findCompletedIdx l m = some (i, t) → t.thread_ts = some ts →
        ¬ ActiveTsMem st ts) →
      TMInv (delete_thread st u m dar dcr).2.1) := by
  refine ⟨?_, get_active_thread_inv, create_active_thread_inv,
    update_thread_activity_inv, complete_thread_inv, delete_thread_inv⟩
  intro now activeRes completedRes hnd
  cases activeRes with
  | none => exact TMInv_init
  | some arows =>
    simp only [Option.getD] at hnd
    have hinv1 : TMInv (arows.foldl (loadActiveRow now) initState) :=
      foldActive_inv arows initState now TMInv_init hnd.of_append_left
        (fun ts _ => ActiveTsMem_init ts)
    cases completedRes with
    | none => exact hinv1
    | some crows =>
      refine foldCompleted_inv crows _ hinv1 ?_
      intro ts hts hmem
      rcases foldActive_mem arows initState now ts hmem with hm | hm
      · exact ActiveTsMem_init ts hm
      · exact (List.disjoint_of_nodup_append hnd) hm hts

/-- C10 witness: the invariant preservation for `create_active_thread`
applied at a concrete state. -/
theorem thread_ts_index_invariant_witness :
    TMInv (create_active_thread initState "u1" "C" "T" "M" (some "r1") 0).2 :=
  thread_ts_index_invariant.2.2.1 initState "u1" "C" "T" "M" (some "r1") 0
    TMInv_init (ActiveTsMem_init "T")

end ThreadManager

/-! ## Strings as character lists: substring containment and replacement -/

/-- `isPre p s`: `p` is a prefix of `s` (Python `s.startswith(p)`). -/
def isPre : List Char → List Char → Bool
  | [], _ => true
  | _ :: _, [] => false
  | a :: as, b :: bs => a == b && isPre as bs

/-- `containsSub p s`: `p` occurs in `s` as a contiguous substring
(Python `p in s`). -/
def containsSub (p : List Char) : List Char → Bool
  | [] => isPre p []
  | c :: t => isPre p (c :: t) || containsSub p t

/-- Python `s.replace(p, r)`: replace every non-overlapping occurrence of
`p` in `s` by `r`, scanning left to right.  (Never called with `p = []`
by the embedded code.) -/
def replaceAll (p r : List Char) (s : List Char) : List Char :=
  match s with
  | [] => []
  | c :: t =>
    if p ≠ [] ∧ isPre p (c :: t) = true then
      r ++ replaceAll p r (List.drop (p.length - 1) t)
    else
      c :: replaceAll p r t
termination_by s.length
decreasing_by
  · simp only [List.length_cons, List.length_drop]
    omega
  · simp only [List.length_cons]
    omega

theorem isPre_nil_iff (p : List Char) : isPre p [] = true ↔ p = [] := by
  cases p <;> simp [isPre]

theorem isPre_cons_iff (a b : Char) (as bs : List Char) :
    isPre (a :: as) (b :: bs) = true ↔ a = b ∧ isPre as bs = true := by
  simp [isPre]

theorem isPre_append_self (r t : List Char) : isPre r (r ++ t) = true := by
  induction r with
  | nil => rfl
  | cons a as ih => simp [isPre, ih]

/-- Two prefixes of the same list are comparable. -/
theorem isPre_total (s : List Char) :
    ∀ p q, isPre p s = true → isPre q s = true →
      isPre p q = true ∨ isPre q p = true := by
  induction s with
  | nil =>
    intro p q hp hq
    rw [isPre_nil_iff] at hp hq
    subst hp; subst hq
    exact Or.inl rfl
  | cons c t ih =>
    intro p q hp hq
    cases p with
    | nil => exact Or.inl rfl
    | cons a as =>
      cases q with
      | nil => exact Or.inr rfl
      | cons b bs =>
        rw [isPre_cons_iff] at hp hq
        obtain ⟨hac, has⟩ := hp
        obtain ⟨hbc, hbs⟩ := hq
        subst hac
        subst hbc
        rcases ih as bs has hbs with h | h
        · exact Or.inl ((isPre_cons_iff _ _ _ _).mpr ⟨rfl, h⟩)
        · exact Or.inr ((isPre_cons_iff _ _ _ _).mpr ⟨rfl, h⟩)

/-- `isPre u s` exposes `s` as `u ++ drop u.length s`. -/
theorem isPre_eq_append (u : List Char) :
    ∀ s, isPre u s = true → u ++ List.drop u.length s = s := by
  induction u with
  | nil => intro s _; simp
  | cons a as ih =>
    intro s h
    cases s with
    | nil => exact absurd ((isPre_nil_iff _).mp h) (by simp)
    | cons c t =>
      rw [isPre_cons_iff] at h
      obtain ⟨hac, has⟩ := h
      subst hac
      simpa using ih t has

theorem containsSub_cons (p : List Char) (c : Char) (t : List Char) :
    containsSub p (c :: t) = (isPre p (c :: t) || containsSub p t) := rfl

theorem containsSub_of_tail (p : List Char) (c : Char) (t : List Char)
    (h : containsSub p t = true) : containsSub p (c :: t) = true := by
  simp [containsSub_cons, h]

theorem containsSub_of_isPre (p s : List Char) (h : isPre p s = true) :
    containsSub p s = true := by
  cases s with
  | nil => exact h
  | cons c t => simp [containsSub_cons, h]

theorem containsSub_of_drop (p : List Char) :
    ∀ (s : List Char) (k : Nat),
      containsSub p (List.drop k s) = true → containsSub p s = true := by
  intro s
  induction s with
  | nil => intro k h; simpa using h
  | cons c t ih =>
    intro k h
    cases k with
    | zero => exact h
    | succ k =>
      rw [List.drop_succ_cons] at h
      exact containsSub_of_tail p c t (ih k h)

theorem containsSub_append_right (p u t : List Char)
    (h : containsSub p t = true) : containsSub p (u ++ t) = true := by
  induction u with
  | nil => exact h
  | cons c u' ih => exact containsSub_of_tail p c (u' ++ t) ih

/-- An occurrence of a pattern headed by `x` in `u ++ t` where `u` avoids
`x` lies entirely inside `t`. -/
theorem containsSub_append_no_head (x : Char) (q : List Char) :
    ∀ (u t : List Char), x ∉ u →
      containsSub (x :: q) (u ++ t) = true → containsSub (x :: q) t = true := by
  intro u
  induction u with
  | nil => intro t _ h; exact h
  | cons c u' ih =>
    intro t hx h
    rw [List.cons_append, containsSub_cons] at h
    rcases Bool.or_eq_true_iff.mp h with h | h
    · rw [isPre_cons_iff] at h
      exact absurd (h.1 ▸ List.mem_cons_self c u') hx
    · exact ih t (fun hm => hx (List.mem_cons_of_mem c hm)) h

/-- A kept prefix that avoids the pattern head survives `replaceAll`. -/
theorem isPre_replaceAll_of_not_mem (x : Char) (px r : List Char) :
    ∀ (u s : List Char), x ∉ u → isPre u s = true →
      isPre u (replaceAll (x :: px) r s) = true := by
  intro u
  induction u with
  | nil => intro s _ _; rfl
  | cons d u' ih =>
    intro s hx h
    cases s with
    | nil => exact absurd ((isPre_nil_iff _).mp h) (by simp)
    | cons c t =>
      rw [isPre_cons_iff] at h
      obtain ⟨hdc, ht⟩ := h
      subst hdc
      have hnp : ¬((x :: px) ≠ [] ∧ isPre (x :: px) (d :: t) = true) := by
        rintro ⟨-, hp⟩
        rw [isPre_cons_iff] at hp
        exact hx (hp.1 ▸ List.mem_cons_self d u')
      rw [replaceAll, if_neg hnp, isPre_cons_iff]
      exact ⟨rfl, ih t (fun hm => hx (List.mem_cons_of_mem d hm)) ht⟩

/-- A non-prefix that avoids the replacement head stays a non-prefix
after `replaceAll`. -/
theorem isPre_replaceAll_inv (p : List Char) (h0 : Char) (rt : List Char) :
    ∀ (s q : List Char), q ≠ [] → h0 ∉ q → isPre q s = false →
      isPre q (replaceAll p (h0 :: rt) s) = false := by
  intro s
  induction s with
  | nil =>
    intro q hq _ _
    rw [replaceAll]
    cases q with
    | nil => exact absurd rfl hq
    | cons a as => rfl
  | cons c t ih =>
    intro q hq hh0 h
    rw [replaceAll]
    split
    · cases q with
      | nil => exact absurd rfl hq
      | cons a as =>
        apply Bool.eq_false_iff.mpr
        intro hcon
        rw [List.cons_append, isPre_cons_iff] at hcon
        exact hh0 (hcon.1 ▸ List.mem_cons_self a as)
    · cases q with
      | nil => exact absurd rfl hq
      | cons a as =>
        apply Bool.eq_false_iff.mpr
        intro hcon
        rw [isPre_cons_iff] at hcon
        obtain ⟨hac, hcon2⟩ := hcon
        subst hac
        have h' : isPre as t = false := by
          cases hat : isPre as t with
          | false => rfl
          | true =>
            rw [Bool.eq_false_iff] at h
            exact absurd ((isPre_cons_iff _ _ _ _).mpr ⟨rfl, hat⟩) h
        have hasne : as ≠ [] := by
          intro he
          rw [he] at h'
          exact Bool.noConfusion h'
        have := ih as hasne (fun hm => hh0 (List.mem_cons_of_mem a hm)) h'
        rw [hcon2] at this
        exact Bool.noConfusion this

theorem replaceAll_of_not_contains (p r : List Char) :
    ∀ s, containsSub p s = false → replaceAll p r s = s := by
  intro s
  induction s with
  | nil => intro _; simp [replaceAll]
  | cons c t ih =>
    intro h
    rw [containsSub_cons, Bool.or_eq_false_iff] at h
    obtain ⟨h1, h2⟩ := h
    rw [replaceAll, if_neg, ih h2]
    rintro ⟨-, hp⟩
    rw [hp] at h1
    exact Bool.noConfusion h1

/-- After replacing `x :: pq` by a replacement that avoids `x`, a pattern
`x :: wq` occurs nowhere — provided it is the replaced pattern itself, or
did not occur before. -/
theorem not_containsSub_replaceAll (x h0 : Char) (pq wq rt : List Char)
    (hxr : x ∉ h0 :: rt) (hwq : wq ≠ []) (hh0 : h0 ∉ wq) :
    ∀ (n : Nat) (s : List Char), s.length ≤ n →
      (wq = pq ∨ containsSub (x :: wq) s = false) →
      containsSub (x :: wq) (replaceAll (x :: pq) (h0 :: rt) s) = false := by
  intro n
  induction n with
  | zero =>
    intro s hlen hs
    have hnil : s = [] := List.eq_nil_of_length_eq_zero (Nat.le_zero.mp hlen)
    subst hnil
    rw [replaceAll]
    simp [containsSub, isPre]
  | succ n ih =>
    intro s hlen hs
    cases s with
    | nil =>
      rw [replaceAll]
      simp [containsSub, isPre]
    | cons c t =>
      rw [replaceAll]
      split
      case isTrue hcond =>
        apply Bool.eq_false_iff.mpr
        intro hcon
        have h2 : containsSub (x :: wq)
            (replaceAll (x :: pq) (h0 :: rt)
              (List.drop ((x :: pq).length - 1) t)) = true :=
          containsSub_append_no_head x wq (h0 :: rt) _ hxr hcon
        have hlen2 : (List.drop ((x :: pq).length - 1) t).length ≤ n := by
          simp only [List.length_cons] at hlen ⊢
          simp only [List.length_drop]
          omega
        have hs2 : wq = pq ∨
            containsSub (x :: wq) (List.drop ((x :: pq).length - 1) t) = false := by
          rcases hs with h | h
          · exact Or.inl h
          · refine Or.inr ?_
            cases hcc : containsSub (x :: wq)
                (List.drop ((x :: pq).length - 1) t) with
            | false => rfl
            | true =>
              have hin := containsSub_of_tail (x :: wq) c t
                (containsSub_of_drop (x :: wq) t _ hcc)
              rw [hin] at h
              exact Bool.noConfusion h
        have := ih _ hlen2 hs2
        rw [h2] at this
        exact Bool.noConfusion this
      case isFalse hcond =>
        rw [containsSub_cons, Bool.or_eq_false_iff]
        constructor
        · apply Bool.eq_false_iff.mpr
          intro hcon
          rw [isPre_cons_iff] at hcon
          obtain ⟨hxc, hpre⟩ := hcon
          have hnwt : isPre wq t = false := by
            rcases hs with h | h
            · subst h
              cases hit : isPre wq t with
              | false => rfl
              | true =>
                refine absurd ⟨by simp, ?_⟩ hcond
                rw [← hxc]
                exact (isPre_cons_iff _ _ _ _).mpr ⟨rfl, hit⟩
            · rw [containsSub_cons, Bool.or_eq_false_iff] at h
              cases hit : isPre wq t with
              | false => rfl
              | true =>
                have hw : isPre (x :: wq) (c :: t) = true := by
                  rw [isPre_cons_iff]
                  exact ⟨hxc, hit⟩
                rw [hw] at h
                exact Bool.noConfusion h.1
          have hd := isPre_replaceAll_inv (x :: pq) h0 rt t wq hwq hh0 hnwt
          rw [hpre] at hd
          exact Bool.noConfusion hd
        · apply ih t (by simpa using Nat.le_of_succ_le_succ (by simpa using hlen))
          rcases hs with h | h
          · exact Or.inl h
          · rw [containsSub_cons, Bool.or_eq_false_iff] at h
            exact Or.inr h.2

/-- When the pattern occurs, its replacement occurs in the output. -/
theorem containsSub_replacement (p r : List Char) (hp : p ≠ []) :
    ∀ s, containsSub p s = true → containsSub r (replaceAll p r s) = true := by
  intro s
  induction s with
  | nil =>
    intro h
    rw [(isPre_nil_iff p).mp h] at hp
    exact absurd rfl hp
  | cons c t ih =>
    intro h
    rw [replaceAll]
    split
    case isTrue hcond =>
      exact containsSub_of_isPre _ _ (isPre_append_self _ _)
    case isFalse hcond =>
      rw [containsSub_cons] at h
      rcases Bool.or_eq_true_iff.mp h with h | h
      · exact absurd ⟨hp, h⟩ hcond
      · exact containsSub_of_tail _ c _ (ih h)

/-- An occurrence of token `x :: wq` survives replacing a different,
prefix-incompatible token `x :: pq`. -/
theorem containsSub_token_preserved (x : Char) (pq wq r : List Char)
    (hxpq : x ∉ pq) (hxwq : x ∉ wq)
    (hinc1 : isPre pq wq = false) (hinc2 : isPre wq pq = false) :
    ∀ (n : Nat) (s : List Char), s.length ≤ n →
      containsSub (x :: wq) s = true →
      containsSub (x :: wq) (replaceAll (x :: pq) r s) = true := by
  intro n
  induction n with
  | zero =>
    intro s hlen h
    have hnil : s = [] := List.eq_nil_of_length_eq_zero (Nat.le_zero.mp hlen)
    subst hnil
    exact absurd ((isPre_nil_iff _).mp h) (by simp)
  | succ n ih =>
    intro s hlen h
    cases s with
    | nil => exact absurd ((isPre_nil_iff _).mp h) (by simp)
    | cons c t =>
      rw [replaceAll]
      split
      case isTrue hcond =>
        obtain ⟨-, hpre⟩ := hcond
        rw [isPre_cons_iff] at hpre
        obtain ⟨hxc, hpq⟩ := hpre
        rw [containsSub_cons] at h
        have ht : containsSub (x :: wq) t = true := by
          rcases Bool.or_eq_true_iff.mp h with h | h
          · rw [isPre_cons_iff] at h
            obtain ⟨-, hwt⟩ := h
            rcases isPre_total t wq pq hwt hpq with hc | hc
            · rw [hc] at hinc2; exact Bool.noConfusion hinc2
            · rw [hc] at hinc1; exact Bool.noConfusion hinc1
          · exact h
        have ht2 : containsSub (x :: wq)
            (List.drop ((x :: pq).length - 1) t) = true := by
          have hsplit := isPre_eq_append pq t hpq
          have : containsSub (x :: wq)
              (pq ++ List.drop pq.length t) = true := by
            rw [hsplit]; exact ht
          have := containsSub_append_no_head x wq pq _ hxpq this
          simpa using this
        have hlen2 : (List.drop ((x :: pq).length - 1) t).length ≤ n := by
          simp only [List.length_cons] at hlen ⊢
          simp only [List.length_drop]
          omega
        exact containsSub_append_right _ r _ (ih _ hlen2 ht2)
      case isFalse hcond =>
        rw [containsSub_cons] at h
        rcases Bool.or_eq_true_iff.mp h with h | h
        · rw [isPre_cons_iff] at h
          obtain ⟨hxc, hwt⟩ := h
          rw [containsSub_cons, Bool.or_eq_true_iff]
          refine Or.inl ?_
          rw [isPre_cons_iff]
          exact ⟨hxc, isPre_replaceAll_of_not_mem x pq r wq t hxwq hwt⟩
        · exact containsSub_of_tail _ c _
            (ih t (by simpa using Nat.le_of_succ_le_succ (by simpa using hlen)) h)

/-- An occurrence of a text headed by `hd ≠ x` that avoids `x` survives
replacing a token `x :: pq` whose tail avoids `hd`. -/
theorem containsSub_text_preserved (x hd : Char) (pq R₂ r : List Char)
    (hhx : hd ≠ x) (hhpq : hd ∉ pq) (hxR : x ∉ hd :: R₂) :
    ∀ (n : Nat) (s : List Char), s.length ≤ n →
      containsSub (hd :: R₂) s = true →
      containsSub (hd :: R₂) (replaceAll (x :: pq) r s) = true := by
  intro n
  induction n with
  | zero =>
    intro s hlen h
    have hnil : s = [] := List.eq_nil_of_length_eq_zero (Nat.le_zero.mp hlen)
    subst hnil
    exact absurd ((isPre_nil_iff _).mp h) (by simp)
  | succ n ih =>
    intro s hlen h
    cases s with
    | nil => exact absurd ((isPre_nil_iff _).mp h) (by simp)
    | cons c t =>
      rw [replaceAll]
      split
      case isTrue hcond =>
        obtain ⟨-, hpre⟩ := hcond
        rw [isPre_cons_iff] at hpre
        obtain ⟨hxc, hpq⟩ := hpre
        rw [containsSub_cons] at h
        have ht : containsSub (hd :: R₂) t = true := by
          rcases Bool.or_eq_true_iff.mp h with h | h
          · rw [isPre_cons_iff] at h
            exact absurd (h.1.trans hxc.symm) hhx
          · exact h
        have ht2 : containsSub (hd :: R₂)
            (List.drop ((x :: pq).length - 1) t) = true := by
          have hsplit := isPre_eq_append pq t hpq
          have hin : containsSub (hd :: R₂)
              (pq ++ List.drop pq.length t) = true := by
            rw [hsplit]; exact ht
          have := containsSub_append_no_head hd R₂ pq _ hhpq hin
          simpa using this
        have hlen2 : (List.drop ((x :: pq).length - 1) t).length ≤ n := by
          simp only [List.length_cons] at hlen ⊢
          simp only [List.length_drop]
          omega
        exact containsSub_append_right _ r _ (ih _ hlen2 ht2)
      case isFalse hcond =>
        rw [containsSub_cons] at h
        rcases Bool.or_eq_true_iff.mp h with h | h
        · rw [isPre_cons_iff] at h
          obtain ⟨hhc, hRt⟩ := h
          rw [containsSub_cons, Bool.or_eq_true_iff]
          refine Or.inl ?_
          rw [isPre_cons_iff]
          refine ⟨hhc, isPre_replaceAll_of_not_mem x pq r R₂ t ?_ hRt⟩
          exact fun hm => hxR (List.mem_cons_of_mem hd hm)
        · exact containsSub_of_tail _ c _
            (ih t (by simpa using Nat.le_of_succ_le_succ (by simpa using hlen)) h)

/-! ## Macro catalog (src/macros.py) -/

namespace Macros

/-- Canned text for `$final` (macros.py line 2). -/
def finalText : String :=
  "Ban decisions are final. Thank you for your attention to this matter!"

/-- Canned text for `$ban` (macros.py line 3). -/
def banText : String :=
  "Hi, after reviewing your account, we have found evidence of substantial botting/hour inflation. As a result, you have been banned from hackatime, and future Hack Club events. You can appeal this decision by sending appropriate proof to this thread."

/-- Canned text for `$deduct` (macros.py line 4). -/
def deductText : String :=
  "Hi, after reviewing your account for SoM we found evidence of significant botting/hour inflation for your project(s). As a result, you will receive a payout deduction. Please note that continuing to log fraudulent time on projects will result in a ban from hackatime, SoM, and potentially future Hack Club events."

/-- Canned text for `$noevidence` (macros.py line 5). -/
def noevidenceText : String :=
  "We cannot share our evidence for a ban due to the reasons outlined in the hackatime ban banner."

/-- Canned text for `$dm` (macros.py line 6). -/
def dmText : String :=
  "We aren't able to share details on bans for the reasons outlined on hackatime:\n```\nWe do not disclose the patterns that were detected. Releasing this information would only benefit fraudsters. The fraud team regularly investigates claims of false bans to increase the effectiveness of our detection systems to combat fraud.\n```\nWhat I can tell you:\nYou were banned because your hackatime data matched patterns strongly indicative of fraud, and this was verified by human reviewers. Ban decisions are final and will not be lifted. If you were banned in error, the ban will automatically be lifted."

/-- Canned text for `$alt` (macros.py line 7). -/
def altText : String :=
  "Hi, we've determined that your account is/has an alt. Alting/ban evasion are not allowed. As a result, you've been banned from hackatime, SoM, and future Hack Club events."

/-- The macro catalog in source (insertion) order (macros.py lines 1-8). -/
def MACROS : List (List Char × List Char) :=
  [("$final".toList, finalText.toList),
   ("$ban".toList, banText.toList),
   ("$deduct".toList, deductText.toList),
   ("$noevidence".toList, noevidenceText.toList),
   ("$dm".toList, dmText.toList),
   ("$alt".toList, altText.toList)]

/-- One iteration of the expansion loop (macros.py lines 14-16):
replace every occurrence of the token when it occurs. -/
def applyMacro (s : List Char) (m : List Char × List Char) : List Char :=
  if containsSub m.1 s = true then replaceAll m.1 m.2 s else s

/-- `expand_macros` (macros.py lines 10-18); `none` models Python `None`,
and a falsy (absent or empty) input is returned unchanged. -/
def expand_macros : Option (List Char) → Option (List Char)
  | none => none
  | some t => if t = [] then some t else some (MACROS.foldl applyMacro t)

end Macros

/-! ## The same catalog and expansion inlined in the bot entry point
(src/__main__.py lines 38-56) -/

namespace BotMain

/-- Canned text for `$final` (__main__.py line 39). -/
def finalText : String :=
  "Ban decisions are final. Thank you for your attention to this matter!"

/-- Canned text for `$ban` (__main__.py line 40). -/
def banText : String :=
  "Hi, after reviewing your account, we have found evidence of substantial botting/hour inflation. As a result, you have been banned from hackatime, and future Hack Club events. You can appeal this decision by sending appropriate proof to this thread."

/-- Canned text for `$deduct` (__main__.py line 41). -/
def deductText : String :=
  "Hi, after reviewing your account for SoM we found evidence of significant botting/hour inflation for your project(s). As a result, you will receive a payout deduction. Please note that continuing to log fraudulent time on projects will result in a ban from hackatime, SoM, and potentially future Hack Club events."

/-- Canned text for `$noevidence` (__main__.py line 42). -/
def noevidenceText : String :=
  "We cannot share our evidence for a ban due to the reasons outlined in the hackatime ban banner."

/-- Canned text for `$dm` (__main__.py line 43). -/
def dmText : String :=
  "We aren't able to share details on bans for the reasons outlined on hackatime:\n```\nWe do not disclose the patterns that were detected. Releasing this information would only benefit fraudsters. The fraud team regularly investigates claims of false bans to increase the effectiveness of our detection systems to combat fraud.\n```\nWhat I can tell you:\nYou were banned because your hackatime data matched patterns strongly indicative of fraud, and this was verified by human reviewers. Ban decisions are final and will not be lifted. If you were banned in error, the ban will automatically be lifted."

/-- Canned text for `$alt` (__main__.py line 44). -/
def altText : String :=
  "Hi, we've determined that your account is/has an alt. Alting/ban evasion are not allowed. As a result, you've been banned from hackatime, SoM, and future Hack Club events."

/-- The inlined macro catalog (__main__.py lines 38-45). -/
def MACROS : List (List Char × List Char) :=
  [("$final".toList, finalText.toList),
   ("$ban".toList, banText.toList),
   ("$deduct".toList, deductText.toList),
   ("$noevidence".toList, noevidenceText.toList),
   ("$dm".toList, dmText.toList),
   ("$alt".toList, altText.toList)]

/-- One iteration of the inlined expansion loop (__main__.py lines 52-54). -/
def applyMacro (s : List Char) (m : List Char × List Char) : List Char :=
  if containsSub m.1 s = true then replaceAll m.1 m.2 s else s

/-- The inlined `expand_macros` (__main__.py lines 47-56). -/
def expand_macros : Option (List Char) → Option (List Char)
  | none => none
  | some t => if t = [] then some t else some (MACROS.foldl applyMacro t)

end BotMain

/-- C5: the macro catalog and expansion function of the standalone macros
module and the ones inlined in the bot service entry point are equivalent:
the two catalogs are equal and the two expansion functions agree on every
input. -/
theorem macro_catalog_duplicates_agree :
    Macros.MACROS = BotMain.MACROS ∧
    ∀ t, Macros.expand_macros t = BotMain.expand_macros t := by
  refine ⟨rfl, ?_⟩
  intro t
  cases t with
  | none => rfl
  | some s => rfl

/-- The head of `rep` exists and avoids `wq` (decidable side condition). -/
def headOk (rep wq : List Char) : Bool :=
  match rep with
  | [] => false
  | c :: _ => decide (c ∉ wq)

theorem foldl_applyMacro_id (ms : List (List Char × List Char)) :
    ∀ t, (∀ m ∈ ms, containsSub m.1 t = false) →
      ms.foldl Macros.applyMacro t = t := by
  induction ms with
  | nil => intro t _; rfl
  | cons m rest ih =>
    intro t h
    rw [List.foldl_cons]
    have hm : Macros.applyMacro t m = t := by
      unfold Macros.applyMacro
      rw [if_neg]
      rw [h m (List.mem_cons_self m rest)]
      simp
    rw [hm]
    exact ih t (fun m' hm' => h m' (List.mem_cons_of_mem m hm'))

theorem applyMacro_keeps_token (s tok pq wq rep : List Char)
    (htok : tok = '$' :: pq)
    (hxpq : '$' ∉ pq) (hxwq : '$' ∉ wq)
    (hinc1 : isPre pq wq = false) (hinc2 : isPre wq pq = false)
    (h : containsSub ('$' :: wq) s = true) :
    containsSub ('$' :: wq) (Macros.applyMacro s (tok, rep)) = true := by
  subst htok
  unfold Macros.applyMacro
  split
  · exact containsSub_token_preserved '$' pq wq rep hxpq hxwq hinc1 hinc2
      s.length s le_rfl h
  · exact h

theorem applyMacro_keeps_text (s tok pq rep R : List Char)
    (htok : tok = '$' :: pq) (hxR : '$' ∉ R) (hhead : headOk R pq = true)
    (h : containsSub R s = true) :
    containsSub R (Macros.applyMacro s (tok, rep)) = true := by
  subst htok
  cases R with
  | nil => exact Bool.noConfusion hhead
  | cons hd R₂ =>
    have hd_pq : hd ∉ pq := of_decide_eq_true hhead
    have hd_x : hd ≠ '$' := fun he => hxR (he ▸ List.mem_cons_self hd R₂)
    unfold Macros.applyMacro
    split
    · exact containsSub_text_preserved '$' hd pq R₂ rep hd_x hd_pq hxR
        s.length s le_rfl h
    · exact h

theorem applyMacro_keeps_dead (s tok pq wq rep : List Char)
    (htok : tok = '$' :: pq) (hxr : '$' ∉ rep) (hhead : headOk rep wq = true)
    (hwq : wq ≠ [])
    (h : containsSub ('$' :: wq) s = false) :
    containsSub ('$' :: wq) (Macros.applyMacro s (tok, rep)) = false := by
  subst htok
  cases rep with
  | nil => exact Bool.noConfusion hhead
  | cons h0 rt =>
    have h0wq : h0 ∉ wq := of_decide_eq_true hhead
    unfold Macros.applyMacro
    split
    · exact not_containsSub_replaceAll '$' h0 pq wq rt hxr hwq h0wq
        s.length s le_rfl (Or.inr h)
    · exact h

theorem applyMacro_ban_step (s wq rep : List Char)
    (hxr : '$' ∉ rep) (hhead : headOk rep wq = true) (hwq : wq ≠ [])
    (h : containsSub ('$' :: wq) s = true) :
    containsSub rep (Macros.applyMacro s ('$' :: wq, rep)) = true ∧
    containsSub ('$' :: wq) (Macros.applyMacro s ('$' :: wq, rep)) = false := by
  cases rep with
  | nil => exact Bool.noConfusion hhead
  | cons h0 rt =>
    have h0wq : h0 ∉ wq := of_decide_eq_true hhead
    constructor
    · unfold Macros.applyMacro
      rw [if_pos h]
      exact containsSub_replacement _ _ (by simp) s h
    · unfold Macros.applyMacro
      rw [if_pos h]
      exact not_containsSub_replaceAll '$' h0 wq wq rt hxr hwq h0wq
        s.length s le_rfl (Or.inl rfl)

theorem foldl_applyMacro_post (R wq : List Char) (hxR : '$' ∉ R)
    (hwq : wq ≠ []) :
    ∀ (ms : List (List Char × List Char)) (s : List Char),
      (∀ m ∈ ms, (∃ pq, m.1 = '$' :: pq ∧ headOk R pq = true) ∧
        '$' ∉ m.2 ∧ headOk m.2 wq = true) →
      containsSub R s = true → containsSub ('$' :: wq) s = false →
      containsSub R (ms.foldl Macros.applyMacro s) = true ∧
      containsSub ('$' :: wq) (ms.foldl Macros.applyMacro s) = false := by
  intro ms
  induction ms with
  | nil => intro s _ h1 h2; exact ⟨h1, h2⟩
  | cons m rest ih =>
    intro s hms h1 h2
    obtain ⟨m1, m2⟩ := m
    obtain ⟨⟨pq, hm1, hROk⟩, hx2, hOk2⟩ :=
      hms (m1, m2) (List.mem_cons_self _ rest)
    rw [List.foldl_cons]
    exact ih (Macros.applyMacro s (m1, m2))
      (fun m' hm' => hms m' (List.mem_cons_of_mem _ hm'))
      (applyMacro_keeps_text s m1 pq m2 R hm1 hxR hROk h1)
      (applyMacro_keeps_dead s m1 pq wq m2 hm1 hx2 hOk2 hwq h2)

set_option maxRecDepth 16000

/-- C4: expansion leaves any text containing none of the six macro tokens
unchanged (in particular absent and empty inputs), and for any text
containing `$ban` the output contains the full canned ban-notice text and
no longer contains `$ban`. -/
theorem expand_macros_spec :
    Macros.expand_macros none = none ∧
    (∀ t : List Char, (∀ m ∈ Macros.MACROS, containsSub m.1 t = false) →
      Macros.expand_macros (some t) = some t) ∧
    (∀ t : List Char, containsSub "$ban".toList t = true →
      ∃ t', Macros.expand_macros (some t) = some t' ∧
        containsSub Macros.banText.toList t' = true ∧
        containsSub "$ban".toList t' = false) := by
  refine ⟨rfl, ?_, ?_⟩
  · intro t h
    simp only [Macros.expand_macros]
    rw [foldl_applyMacro_id Macros.MACROS t h]
    split <;> rfl
  · intro t h
    have htne : t ≠ [] := by
      intro he
      rw [he] at h
      exact absurd h (by decide)
    refine ⟨Macros.MACROS.foldl Macros.applyMacro t, ?_, ?_⟩
    · simp only [Macros.expand_macros]
      rw [if_neg htne]
    · have hban : containsSub ('$' :: "ban".toList) t = true := h
      have h1 : containsSub ('$' :: "ban".toList)
          (Macros.applyMacro t ("$final".toList, Macros.finalText.toList)) =
            true :=
        applyMacro_keeps_token t "$final".toList "final".toList "ban".toList
          Macros.finalText.toList rfl (by decide) (by decide) (by decide)
          (by decide) hban
      have h2 := applyMacro_ban_step
        (Macros.applyMacro t ("$final".toList, Macros.finalText.toList))
        "ban".toList Macros.banText.toList (by decide) (by decide)
        (by decide) h1
      have h3 := foldl_applyMacro_post Macros.banText.toList "ban".toList
        (by decide) (by decide)
        [("$deduct".toList, Macros.deductText.toList),
         ("$noevidence".toList, Macros.noevidenceText.toList),
         ("$dm".toList, Macros.dmText.toList),
         ("$alt".toList, Macros.altText.toList)]
        (Macros.applyMacro
          (Macros.applyMacro t ("$final".toList, Macros.finalText.toList))
          ("$ban".toList, Macros.banText.toList))
        ?_ h2.1 h2.2
      · exact h3
      · intro m hm
        rw [List.mem_cons, List.mem_cons, List.mem_cons, List.mem_cons] at hm
        rcases hm with rfl | rfl | rfl | rfl | hm
        · exact ⟨⟨"deduct".toList, rfl, by decide⟩, by decide, by decide⟩
        · exact ⟨⟨"noevidence".toList, rfl, by decide⟩, by decide, by decide⟩
        · exact ⟨⟨"dm".toList, rfl, by decide⟩, by decide, by decide⟩
        · exact ⟨⟨"alt".toList, rfl, by decide⟩, by decide, by decide⟩
        · exact absurd hm (List.not_mem_nil m)

/-- C4 witness: a token-free text is returned unchanged and the `$ban`
expansion postconditions hold at a concrete input. -/
theorem expand_macros_spec_witness :
    Macros.expand_macros (some "hello".toList) = some "hello".toList ∧
    ∃ t', Macros.expand_macros (some "$ban".toList) = some t' ∧
      containsSub Macros.banText.toList t' = true ∧
      containsSub "$ban".toList t' = false :=
  ⟨expand_macros_spec.2.1 "hello".toList (by decide),
   expand_macros_spec.2.2 "$ban".toList (by decide)⟩

/-! ## Case Data Exporter (src/slack_to_mattermost_migration.py) -/

namespace Extractor

/-- A Slack file object as `conversations_replies` delivers it (the fields
read in lines 190-202; absent fields read as `None`). -/
structure SlackFile where
  id : Option String
  name : Option String
  title : Option String
  mimetype : Option String
  size : Option Nat
  url_private : Option String
  url_private_download : Option String
  permalink : Option String
  filetype : Option String
  deriving DecidableEq, Repr

/-- A Slack message as `conversations_replies` delivers it (the fields
read in lines 170-207).  Reaction and edit payloads are passed through
verbatim, so they are carried as opaque strings. -/
structure SlackMessage where
  ts : Option String
  user : Option String
  text : Option String
  bot_id : Option String
  username : Option String
  files : List SlackFile
  reactions : List String
  edited : Option String
  deriving DecidableEq, Repr

/-- One entry of a message's `files` list in the export (lines 191-202). -/
structure FileData where
  id : Option String
  name : Option String
  title : Option String
  mimetype : Option String
  size : Option Nat
  url_private : Option String
  url_private_download : Option String
  permalink : Option String
  filetype : Option String
  is_image : Bool
  deriving DecidableEq, Repr

/-- One entry of a case's `messages` list (lines 176-188). -/
structure MessageData where
  ts : Option String
  user : Option String
  text : String
  timestamp : Option String
  is_bot : Bool
  bot_id : Option String
  username : Option String
  files : List FileData
  reactions : List String
  edited : Option String
  is_from_reported_user : Bool
  deriving DecidableEq, Repr

/-- One export entry of `fraud_cases` (lines 157-168). -/
structure CaseData where
  case_id : String
  reported_user_id : String
  status : String
  thread_ts : String
  messages : List MessageData
  staff_actions : List MessageData
  files_shared : List FileData
  created_at : Option String
  last_activity : Option String
  total_messages : Nat
  deriving DecidableEq, Repr

/-- `file_data` built per attached file (lines 191-202); `is_image` is the
Python-truthy mimetype check with the `image/` prefix test. -/
def mkFileData (f : SlackFile) : FileData :=
  { id := f.id, name := f.name, title := f.title, mimetype := f.mimetype,
    size := f.size, url_private := f.url_private,
    url_private_download := f.url_private_download,
    permalink := f.permalink, filetype := f.filetype,
    is_image :=
      if truthy f.mimetype then
        isPre "image/".toList (f.mimetype.getD "").toList
      else false }

/-- `message_data` built per message (lines 176-188).  `fmt` stands for
`ts ↦ datetime.fromtimestamp(float(ts)).isoformat()`, the derived
ISO timestamp; it is applied only when `ts` is Python-truthy. -/
def mkMessageData (fmt : String → String) (case_user_id : String)
    (m : SlackMessage) : MessageData :=
  { ts := m.ts,
    user := m.user,
    text := m.text.getD "",
    timestamp := if truthy m.ts then some (fmt (m.ts.getD "")) else none,
    is_bot := m.bot_id.isSome,
    bot_id := m.bot_id,
    username := m.username,
    files := m.files.map mkFileData,
    reactions := m.reactions,
    edited := m.edited,
    is_from_reported_user :=
      m.user == some case_user_id && !(truthy m.bot_id) }

/-- `message.get("text", "").startswith(("$", "!"))` (line 206). -/
def staffAction (txt : String) : Bool :=
  isPre ['$'] txt.toList || isPre ['!'] txt.toList

/-- The per-message loop of `extract_case_data` (lines 170-214), carried
with the enumeration index `i`. -/
def extractLoop (fmt : String → String) (uid : String) :
    CaseData → Nat → List SlackMessage → CaseData
  | cd, _, [] => cd
  | cd, i, m :: rest =>
    let md := mkMessageData fmt uid m
    let cd1 : CaseData :=
      { cd with
        files_shared := cd.files_shared ++ md.files,
        staff_actions :=
          if staffAction (m.text.getD "") then cd.staff_actions ++ [md]
          else cd.staff_actions,
        messages := cd.messages ++ [md],
        created_at := if i = 0 then md.timestamp else cd.created_at,
        last_activity := md.timestamp }
    extractLoop fmt uid cd1 (i + 1) rest

/-- `extract_case_data` (lines 140-220) on a successfully retrieved
transcript `messages`; an empty transcript yields `None` (line 153).
`total_messages` is set to `len(messages)` up front (line 167). -/
def extract_case_data (fmt : String → String)
    (thread_ts user_id status : String) (messages : List SlackMessage) :
    Option CaseData :=
  if messages = [] then none
  else
    some (extractLoop fmt user_id
      { case_id := thread_ts, reported_user_id := user_id, status := status,
        thread_ts := thread_ts, messages := [], staff_actions := [],
        files_shared := [], created_at := none, last_activity := none,
        total_messages := messages.length } 0 messages)

theorem extractLoop_messages (fmt : String → String) (uid : String) :
    ∀ (ms : List SlackMessage) (cd : CaseData) (i : Nat),
      (extractLoop fmt uid cd i ms).messages =
        cd.messages ++ ms.map (mkMessageData fmt uid) := by
  intro ms
  induction ms with
  | nil => intro cd i; simp [extractLoop]
  | cons m rest ih =>
    intro cd i
    rw [extractLoop, ih]
    simp

theorem extractLoop_total (fmt : String → String) (uid : String) :
    ∀ (ms : List SlackMessage) (cd : CaseData) (i : Nat),
      (extractLoop fmt uid cd i ms).total_messages = cd.total_messages := by
  intro ms
  induction ms with
  | nil => intro cd i; rfl
  | cons m rest ih => intro cd i; rw [extractLoop, ih]

theorem extractLoop_last (fmt : String → String) (uid : String) :
    ∀ (ms : List SlackMessage) (cd : CaseData) (i : Nat),
      (extractLoop fmt uid cd i ms).last_activity =
        match ms.getLast? with
        | none => cd.last_activity
        | some m => (mkMessageData fmt uid m).timestamp := by
  intro ms
  induction ms with
  | nil => intro cd i; rfl
  | cons m rest ih =>
    intro cd i
    rw [extractLoop, ih]
    cases rest with
    | nil => rfl
    | cons m2 rest2 =>
      rw [List.getLast?_cons_cons]
      cases hl : (m2 :: rest2).getLast? with
      | none => simp at hl
      | some mm => rfl

theorem extractLoop_created_of_pos (fmt : String → String) (uid : String) :
    ∀ (ms : List SlackMessage) (cd : CaseData) (i : Nat), i ≠ 0 →
      (extractLoop fmt uid cd i ms).created_at = cd.created_at := by
  intro ms
  induction ms with
  | nil => intro cd i _; rfl
  | cons m rest ih =>
    intro cd i hi
    rw [extractLoop, ih _ _ (Nat.succ_ne_zero i)]
    simp [hi]

end Extractor

namespace Extractor

/-- C6: for a non-empty retrieved transcript of at most 1000 messages,
the export entry counts every message (`total_messages` and the
`messages` sequence both have length N) and carries the first and last
retrieved messages' derived timestamps as `created_at` and
`last_activity`. -/
theorem extract_case_data_spec (fmt : String → String)
    (thread_ts user_id status : String) (msgs : List SlackMessage)
    (hne : msgs ≠ []) (_hcap : msgs.length ≤ 1000) :
    ∃ cd, extract_case_data fmt thread_ts user_id status msgs = some cd ∧
      cd.total_messages = msgs.length ∧
      cd.messages.length = msgs.length ∧
      cd.created_at = (mkMessageData fmt user_id (msgs.head hne)).timestamp ∧
      cd.last_activity =
        (mkMessageData fmt user_id (msgs.getLast hne)).timestamp := by
  refine ⟨extractLoop fmt user_id
    { case_id := thread_ts, reported_user_id := user_id, status := status,
      thread_ts := thread_ts, messages := [], staff_actions := [],
      files_shared := [], created_at := none, last_activity := none,
      total_messages := msgs.length } 0 msgs, ?_, ?_, ?_, ?_, ?_⟩
  · rw [extract_case_data, if_neg hne]
  · rw [extractLoop_total]
  · rw [extractLoop_messages]
    simp
  · cases msgs with
    | nil => exact absurd rfl hne
    | cons m rest =>
      rw [extractLoop,
        extractLoop_created_of_pos fmt user_id rest _ 1 one_ne_zero]
      simp
  · rw [extractLoop_last, List.getLast?_eq_getLast msgs hne]

end Extractor

namespace Extractor

/-- A minimal concrete transcript message. -/
def demoMsg (tsv : String) : SlackMessage :=
  ⟨some tsv, some "U1", some "hello", none, none, [], [], none⟩

/-- C6 witness at a concrete two-message transcript. -/
theorem extract_case_data_spec_witness :
    ∃ cd, extract_case_data (fun s => s) "T" "U1" "active"
        [demoMsg "1", demoMsg "2"] = some cd ∧
      cd.total_messages = [demoMsg "1", demoMsg "2"].length ∧
      cd.messages.length = [demoMsg "1", demoMsg "2"].length ∧
      cd.created_at = (mkMessageData (fun s => s) "U1"
        ([demoMsg "1", demoMsg "2"].head (by simp))).timestamp ∧
      cd.last_activity = (mkMessageData (fun s => s) "U1"
        ([demoMsg "1", demoMsg "2"].getLast (by simp))).timestamp :=
  extract_case_data_spec (fun s => s) "T" "U1" "active"
    [demoMsg "1", demoMsg "2"] (by simp) (by simp)

end Extractor

/-! ## Staff file-only relay (src/__main__.py lines 467-500 and
1170-1177) -/

namespace BotMain

/-- Opaque carrier for a Slack file object passed to `send_dm_to_user`
(only emptiness of the file list is inspected before the early return). -/
structure BotFile where
  id : String
  deriving DecidableEq, Repr

/-- A direct message actually posted by `chat_postMessage`. -/
structure DmPost where
  channel : String
  text : String
  deriving DecidableEq, Repr

/-- `send_dm_to_user` (__main__.py lines 467-500).  `openRes` is the
outcome of `conversations_open` (`none` models a raised, caught
exception), `postRes` that of `chat_postMessage` (`ok` flag and `ts`).
The second component lists the direct messages actually posted. -/
def send_dm_to_user (openRes : Option String)
    (postRes : Option (Bool × String)) (user_id reply_text : String)
    (files : List BotFile) : Option String × List DmPost :=
  let _ := user_id
  match openRes with
  | none => (none, [])
  | some dm_channel =>
    if files ≠ [] ∨ reply_text = "[Shared file]" then (none, [])
    else
      match postRes with
      | none => (none, [])
      | some (ok, ts) =>
        (if ok then some ts else none, [⟨dm_channel, reply_text⟩])

/-- The review-channel branch of `handle_file_shared`
(__main__.py lines 1170-1177): for every active-cache user whose thread
matches, relay the file with body `"[Shared file]"`, discarding each
call's result.  Returns every direct message the branch posted. -/
def handle_file_shared_private (st : ThreadManager.TMState)
    (thread_ts : String) (file : BotFile)
    (openRes : String → Option String)
    (postRes : String → Option (Bool × String)) : List DmPost :=
  ((st.active.filter (fun p => p.2.thread_ts == some thread_ts)).map
    (fun p =>
      (send_dm_to_user (openRes p.1) (postRes p.1) p.1 "[Shared file]"
        [file]).2)).flatten

/-- Concrete state for the file-only relay: one active case whose thread
matches the shared file's thread. -/
def c9State : ThreadManager.TMState :=
  ⟨[("u", ⟨some "T", some "C", some "M", "r", 0⟩)], [], [],
    [(some "T", "u")]⟩

/-- C9 counterexample: with a reachable DM channel and a post call that
would succeed, the file-only relay returns an absent result and posts
nothing, and the file-shared handler emits no action at all — the absent
result is discarded, so nothing records the attempt as a failure. -/
theorem send_dm_file_only_counterexample :
    send_dm_to_user (some "D") (some (true, "ts1")) "u"
      "[Shared file]" [⟨"f1"⟩] = (none, []) ∧
    handle_file_shared_private c9State "T" ⟨"f1"⟩
      (fun _ => some "D") (fun _ => some (true, "ts1")) = [] :=
  ⟨rfl, rfl⟩

/-- C9 (amended): whenever `send_dm_to_user` is called with a non-empty
file list or the literal body "[Shared file]", it returns an absent
result and posts no direct message — so the staff file-only relay never
delivers a message; its caller in `handle_file_shared` discards the
absent result and records nothing. -/
theorem send_dm_file_only_semantics (openRes : Option String)
    (postRes : Option (Bool × String)) (user_id reply_text : String)
    (files : List BotFile)
    (h : files ≠ [] ∨ reply_text = "[Shared file]") :
    send_dm_to_user openRes postRes user_id reply_text files =
      (none, []) ∧
    (∀ st thread_ts file openf postf,
      handle_file_shared_private st thread_ts file openf postf = []) := by
  constructor
  · cases openRes with
    | none => rfl
    | some ch => simp [send_dm_to_user, h]
  · intro st thread_ts file openf postf
    unfold handle_file_shared_private
    rw [List.flatten_eq_nil_iff]
    intro l hl
    rw [List.mem_map] at hl
    obtain ⟨p, -, hp⟩ := hl
    have hsend : send_dm_to_user (openf p.1) (postf p.1) p.1
        "[Shared file]" [file] = (none, []) := by
      cases openf p.1 with
      | none => rfl
      | some ch => simp [send_dm_to_user]
    rw [← hp, hsend]

/-- C9 amended-claim witness at a concrete call. -/
theorem send_dm_file_only_semantics_witness :
    send_dm_to_user (some "D") (some (true, "ts2")) "u2"
      "hello" [⟨"f2"⟩] = (none, []) :=
  (send_dm_file_only_semantics (some "D") (some (true, "ts2")) "u2"
    "hello" [⟨"f2"⟩] (Or.inl (by simp))).1

end BotMain
